import Mathlib

/-!
Shallow embedding of the friture spectrogram core, for checking the
specification claims against the code.

The embedding covers:
* `RingBuffer` from `friture-cpp/include/friture/ringbuffer.hpp`
* `SpectrogramImage` from `friture-cpp/src/rendering/spectrogram_image.cpp`
* `FFTProcessor` size validation from `friture-cpp/src/processing/fft_processor.cpp`
* `FrequencyResampler` from `src/processing/frequency_resampler.cpp` and
  `include/friture/frequency_resampler.hpp`

`size_t` is modelled as `Nat`, with wraparound made explicit as `% 2^64`
exactly where the C++ subtraction `getWritePosition() - N` can underflow.
`float` values are modelled as real numbers; `std::memcpy` on a buffer
becomes `listOverwrite`.
-/

namespace Friture

/-- The modulus of `size_t` arithmetic (64-bit). -/
def WORD : ℕ := 2 ^ 64

/-- `memcpy(l.data() + pos, d.data(), d.length)`: overwrite the slice of `l`
starting at `pos` with the elements of `d`. -/
def listOverwrite {α : Type} (l : List α) (pos : ℕ) (d : List α) : List α :=
  l.take pos ++ d ++ l.drop (pos + d.length)

/-! ## RingBuffer (`ringbuffer.hpp`)

Samples are modelled as integers; the buffer logic is value-agnostic. -/

structure RingBuffer where
  buffer : List ℤ
  capacity : ℕ
  write_pos : ℕ

/-- `RingBuffer(capacity)`: zero-initialised storage, cursor at 0. -/
def mkRingBuffer (capacity : ℕ) : RingBuffer :=
  ⟨List.replicate capacity 0, capacity, 0⟩

/-- `RingBuffer::write(data, count)` with `count = data.length`:
two `memcpy` chunks, then the cursor is stored as `(pos + count) % capacity`. -/
def RingBuffer.write (rb : RingBuffer) (data : List ℤ) : RingBuffer :=
  let pos := rb.write_pos
  let count := data.length
  let end_pos := (pos + count) % rb.capacity
  let first_chunk := if pos + count ≤ rb.capacity then count else rb.capacity - pos
  let buf1 := listOverwrite rb.buffer pos (data.take first_chunk)
  let buf2 := if first_chunk < count then listOverwrite buf1 0 (data.drop first_chunk) else buf1
  ⟨buf2, rb.capacity, end_pos⟩

/-- `RingBuffer::read(offset, output, count)`: the two `memcpy` chunks,
returned as the output list. -/
def RingBuffer.read (rb : RingBuffer) (offset count : ℕ) : List ℤ :=
  let start_pos := offset % rb.capacity
  let first_chunk := if start_pos + count ≤ rb.capacity then count else rb.capacity - start_pos
  (rb.buffer.drop start_pos).take first_chunk ++
    (if first_chunk < count then rb.buffer.take (count - first_chunk) else [])

/-- `RingBuffer::getWritePosition()`. -/
def RingBuffer.getWritePosition (rb : RingBuffer) : ℕ :=
  rb.write_pos

/-- A sequence of `write` calls. -/
def RingBuffer.writeSeq (rb : RingBuffer) (ws : List (List ℤ)) : RingBuffer :=
  ws.foldl RingBuffer.write rb

/-! ## SpectrogramImage (`spectrogram_image.cpp`)

Pixels are modelled as naturals (RGBA words). A call that throws is modelled
as returning the state at the point of the throw together with the message. -/

structure SpectrogramImage where
  width : ℕ
  height : ℕ
  write_offset : ℕ
  read_offset : ℕ
  columns_written : ℕ
  pixels : List ℕ

/-- The freshly initialised member state of the constructor
(`2*width*height` zeroed pixels, all offsets 0). -/
def freshImage (width height : ℕ) : SpectrogramImage :=
  ⟨width, height, 0, 0, 0, List.replicate (2 * width * height) 0⟩

/-- `SpectrogramImage::SpectrogramImage(width, height)`. -/
def mkSpectrogramImage (width height : ℕ) : Except String SpectrogramImage :=
  if width = 0 ∨ height = 0 then .error "Width and height must be > 0"
  else .ok (freshImage width height)

/-- `SpectrogramImage::updateReadOffset()`. -/
def SpectrogramImage.updateReadOffset (img : SpectrogramImage) : SpectrogramImage :=
  if img.columns_written ≤ img.width then
    { img with read_offset := 0 }
  else if img.width ≤ img.write_offset then
    { img with read_offset := img.write_offset - img.width }
  else
    { img with read_offset := img.write_offset + img.width }

/-- `SpectrogramImage::addColumn(column_data, column_height)` with
`column_height = column.length`.  On a throw the pair carries the state at
the throw point (the check precedes every mutation) and the message. -/
def SpectrogramImage.addColumn (img : SpectrogramImage) (column : List ℕ) :
    SpectrogramImage × Option String :=
  if column.length ≠ img.height then
    (img, some "Column height must match image height")
  else
    let dest_offset := img.write_offset * img.height
    let img1 := { img with
      pixels := listOverwrite img.pixels dest_offset column,
      columns_written := img.columns_written + 1,
      write_offset := (img.write_offset + 1) % (2 * img.width) }
    (img1.updateReadOffset, none)

/-- A sequence of `addColumn` calls (a throwing call leaves the state as it
was at the throw point). -/
def SpectrogramImage.addColumns (img : SpectrogramImage) (cols : List (List ℕ)) :
    SpectrogramImage :=
  cols.foldl (fun s c => (s.addColumn c).1) img

/-! ## FFTProcessor size validation (`fft_processor.cpp`) -/

inductive WindowFunction
  | Hann
  | Hamming

/-- `FFTProcessor::isValidFFTSize(size)`. -/
def isValidFFTSize (size : ℕ) : Bool :=
  if size < 32 ∨ 16384 < size then false
  else if size &&& (size - 1) ≠ 0 then false
  else true

/-- The configuration that survives a successful `FFTProcessor` construction. -/
structure FFTConfig where
  fft_size : ℕ
  window_type : WindowFunction

/-- `FFTProcessor::FFTProcessor(fft_size, window_type)`: throws on an invalid
size, otherwise accepts the configuration. -/
def mkFFTProcessor (fft_size : ℕ) (window_type : WindowFunction) :
    Except String FFTConfig :=
  if isValidFFTSize fft_size then .ok ⟨fft_size, window_type⟩
  else .error "Invalid FFT size. Must be power of 2, range [32, 16384]"

/-! ## Power-of-two bit test

The code tests `size & (size - 1)` for powers of two; we relate that test to
`∃ k, n = 2 ^ k`. -/

theorem testBit_of_bounds {x j : ℕ} (h1 : 2 ^ j ≤ x) (h2 : x < 2 ^ (j + 1)) :
    x.testBit j = true := by
  have hdiv : x / 2 ^ j = 1 := by
    apply Nat.div_eq_of_lt_le
    · simpa using h1
    · simpa [pow_succ, Nat.mul_comm] using h2
  rw [Nat.testBit_to_div_mod, hdiv]
  decide

theorem land_pred_eq_zero_of_pow2 (k : ℕ) : 2 ^ k &&& (2 ^ k - 1) = 0 := by
  apply Nat.eq_of_testBit_eq
  intro i
  rw [Nat.testBit_and, Nat.zero_testBit, Nat.testBit_two_pow, Nat.testBit_two_pow_sub_one]
  by_cases h : k = i
  · subst h; simp
  · simp [h]

theorem pow2_of_land_pred_eq_zero :
    ∀ n : ℕ, n ≠ 0 → n &&& (n - 1) = 0 → ∃ k, n = 2 ^ k := by
  intro n
  induction n using Nat.strong_induction_on with
  | _ n ih =>
    intro hn h
    rcases Nat.even_or_odd n with he | ho
    · -- even case: halve and recurse
      have hmod : n % 2 = 0 := Nat.even_iff.mp he
      have hdm := Nat.div_add_mod n 2
      have hhalf : n / 2 &&& (n / 2 - 1) = 0 := by
        apply Nat.eq_of_testBit_eq
        intro i
        rw [Nat.testBit_and, Nat.zero_testBit]
        have e1 : (n / 2).testBit i = n.testBit (i + 1) := (Nat.testBit_add_one n i).symm
        have e2 : (n / 2 - 1).testBit i = (n - 1).testBit (i + 1) := by
          rw [Nat.testBit_add_one]
          congr 1
          omega
        rw [e1, e2, ← Nat.testBit_and, h, Nat.zero_testBit]
      have hlt : n / 2 < n := by omega
      have hne : n / 2 ≠ 0 := by omega
      obtain ⟨k, hk⟩ := ih (n / 2) hlt hne hhalf
      exact ⟨k + 1, by rw [pow_succ]; omega⟩
    · -- odd case: only n = 1 is possible
      have hmod : n % 2 = 1 := Nat.odd_iff.mp ho
      by_cases h1 : n = 1
      · exact ⟨0, by simpa using h1⟩
      · exfalso
        have hge : 2 ≤ n - 1 := by omega
        have hlow : 2 ^ (n - 1).log2 ≤ n - 1 := Nat.log2_self_le (by omega)
        have hhigh : n - 1 < 2 ^ ((n - 1).log2 + 1) := Nat.lt_log2_self
        generalize (n - 1).log2 = j at hlow hhigh
        have hj1 : 1 ≤ j := by
          by_contra hc
          have : j = 0 := by omega
          rw [this] at hhigh
          omega
        have hb1 : (n - 1).testBit j = true := testBit_of_bounds hlow hhigh
        have hb2 : n.testBit j = true := by
          obtain ⟨j', rfl⟩ : ∃ j', j = j' + 1 := ⟨j - 1, by omega⟩
          rw [Nat.testBit_add_one] at hb1 ⊢
          have : n / 2 = (n - 1) / 2 := by omega
          rw [this]
          exact hb1
        have : (n &&& (n - 1)).testBit j = true := by
          rw [Nat.testBit_and, hb1, hb2]
          rfl
        rw [h, Nat.zero_testBit] at this
        exact Bool.false_ne_true this

theorem land_pred_eq_zero_iff (n : ℕ) (hn : n ≠ 0) :
    n &&& (n - 1) = 0 ↔ ∃ k, n = 2 ^ k := by
  constructor
  · exact pow2_of_land_pred_eq_zero n hn
  · rintro ⟨k, rfl⟩
    exact land_pred_eq_zero_of_pow2 k

theorem isValidFFTSize_iff (n : ℕ) :
    isValidFFTSize n = true ↔ (∃ k, n = 2 ^ k) ∧ 32 ≤ n ∧ n ≤ 16384 := by
  unfold isValidFFTSize
  split_ifs with h1 h2
  · simp only [Bool.false_eq_true, false_iff]
    rintro ⟨-, hge, hle⟩
    omega
  · simp only [Bool.false_eq_true, false_iff]
    rintro ⟨hp, -, -⟩
    exact h2 ((land_pred_eq_zero_iff n (by omega)).mpr hp)
  · simp only [true_iff]
    push_neg at h2
    refine ⟨(land_pred_eq_zero_iff n (by omega)).mp h2, by omega, by omega⟩

/-! ## List access helpers -/

theorem getD_of_lt {α : Type} (l : List α) (n : ℕ) (x : α) (h : n < l.length) :
    l.getD n x = l[n] := by
  simp [List.getD_eq_getElem?_getD, List.getElem?_eq_getElem h]

theorem getD_append_left {α : Type} (l₁ l₂ : List α) (n : ℕ) (x : α) (h : n < l₁.length) :
    (l₁ ++ l₂).getD n x = l₁.getD n x := by
  simp [List.getD_eq_getElem?_getD, List.getElem?_append_left h]

theorem getD_append_right {α : Type} (l₁ l₂ : List α) (n : ℕ) (x : α) (h : l₁.length ≤ n) :
    (l₁ ++ l₂).getD n x = l₂.getD (n - l₁.length) x := by
  simp [List.getD_eq_getElem?_getD, List.getElem?_append_right h]

theorem getD_take {α : Type} (l : List α) (k m : ℕ) (x : α) (hm : m < k) :
    (l.take k).getD m x = l.getD m x := by
  simp [List.getD_eq_getElem?_getD, List.getElem?_take_of_lt hm]

theorem getD_drop {α : Type} (l : List α) (n i : ℕ) (x : α) :
    (l.drop n).getD i x = l.getD (n + i) x := by
  simp [List.getD_eq_getElem?_getD, List.getElem?_drop]

theorem listOverwrite_length {α : Type} (l d : List α) (pos : ℕ)
    (h : pos + d.length ≤ l.length) :
    (listOverwrite l pos d).length = l.length := by
  unfold listOverwrite
  simp only [List.length_append, List.length_take, List.length_drop]
  omega

theorem listOverwrite_getD {α : Type} (l d : List α) (pos j : ℕ) (x : α)
    (hle : pos + d.length ≤ l.length) (hj : j < l.length) :
    (listOverwrite l pos d).getD j x =
      if pos ≤ j ∧ j < pos + d.length then d.getD (j - pos) x else l.getD j x := by
  have htk : (l.take pos).length = pos := by
    simp only [List.length_take]
    omega
  unfold listOverwrite
  rcases Nat.lt_or_ge j pos with h1 | h1
  · rw [getD_append_left _ _ _ _ (by simp only [List.length_append, htk]; omega),
      getD_append_left _ _ _ _ (by omega : j < (l.take pos).length),
      getD_take _ _ _ _ h1, if_neg (by omega)]
  · rcases Nat.lt_or_ge j (pos + d.length) with h2 | h2
    · rw [getD_append_left _ _ _ _ (by simp only [List.length_append, htk]; omega),
        getD_append_right _ _ _ _ (by omega : (l.take pos).length ≤ j),
        htk, if_pos ⟨h1, h2⟩]
    · rw [getD_append_right _ _ _ _ (by simp only [List.length_append, htk]; omega),
        getD_drop, if_neg (by omega)]
      congr 1
      simp only [List.length_append, htk]
      omega

/-! ## Ring buffer arithmetic -/

theorem phys_mod (cap L a : ℕ) (hcap : 0 < cap) (hL : L ≤ a) :
    (a % cap + cap - L % cap) % cap = (a - L) % cap := by
  obtain ⟨q, r, hr, hqr⟩ : ∃ q r, r < cap ∧ L = cap * q + r :=
    ⟨L / cap, L % cap, Nat.mod_lt _ hcap, (Nat.div_add_mod L cap).symm⟩
  obtain ⟨m, hmq⟩ : ∃ m, m = cap * q := ⟨_, rfl⟩
  rw [← hmq] at hqr
  have hrL : L % cap = r := by
    rw [hqr, hmq, Nat.mul_add_mod, Nat.mod_eq_of_lt hr]
  rw [hrL, Nat.add_sub_assoc (le_of_lt hr), Nat.mod_add_mod]
  calc (a + (cap - r)) % cap
      = ((a - L) + cap * (q + 1)) % cap := by
        congr 1
        rw [Nat.mul_add, Nat.mul_one, ← hmq]
        omega
    _ = (a - L) % cap := Nat.add_mul_mod_self_left _ _ _

theorem phys_mod_general (cap L a : ℕ) (hcap : 0 < cap) :
    ((a % cap + cap - L % cap) % cap + L) % cap = a % cap := by
  obtain ⟨q, r, hr, hqr⟩ : ∃ q r, r < cap ∧ L = cap * q + r :=
    ⟨L / cap, L % cap, Nat.mod_lt _ hcap, (Nat.div_add_mod L cap).symm⟩
  obtain ⟨m, hmq⟩ : ∃ m, m = cap * q := ⟨_, rfl⟩
  rw [← hmq] at hqr
  have hrL : L % cap = r := by
    rw [hqr, hmq, Nat.mul_add_mod, Nat.mod_eq_of_lt hr]
  rw [hrL, Nat.mod_add_mod]
  calc (a % cap + cap - r + L) % cap
      = (a % cap + cap * (q + 1)) % cap := by
        congr 1
        rw [Nat.mul_add, Nat.mul_one, ← hmq]
        omega
    _ = a % cap % cap := Nat.add_mul_mod_self_left _ _ _
    _ = a % cap := Nat.mod_mod_of_dvd a dvd_rfl

theorem phys_eval (cap pos j : ℕ) (hp : pos < cap) (hj : j < cap) :
    (j + cap - pos) % cap = if pos ≤ j then j - pos else j + cap - pos := by
  rcases le_or_lt pos j with h | h
  · rw [if_pos h]
    have : j + cap - pos = (j - pos) + cap := by omega
    rw [this, Nat.add_mod_right, Nat.mod_eq_of_lt (by omega)]
  · rw [if_neg (by omega), Nat.mod_eq_of_lt (by omega)]

/-! ## Ring buffer characterisation -/

theorem write_buffer_length (rb : RingBuffer) (d : List ℤ)
    (hlen : rb.buffer.length = rb.capacity) (hpos : rb.write_pos < rb.capacity)
    (hd : d.length ≤ rb.capacity) :
    (rb.write d).buffer.length = rb.capacity := by
  unfold RingBuffer.write
  simp only
  rcases le_or_lt (rb.write_pos + d.length) rb.capacity with hnw | hw
  · have hB : ¬ d.length < d.length := by omega
    rw [if_pos hnw, if_neg hB]
    rw [listOverwrite_length _ _ _ (by simp only [List.length_take]; omega), hlen]
  · have hA : ¬ rb.write_pos + d.length ≤ rb.capacity := by omega
    have hB : rb.capacity - rb.write_pos < d.length := by omega
    have hb1 : (listOverwrite rb.buffer rb.write_pos
        (d.take (rb.capacity - rb.write_pos))).length = rb.capacity := by
      rw [listOverwrite_length _ _ _ (by simp only [List.length_take]; omega), hlen]
    rw [if_neg hA, if_pos hB]
    rw [listOverwrite_length _ _ _
        (by rw [hb1]; simp only [List.length_drop]; omega), hb1]

theorem write_getD (rb : RingBuffer) (d : List ℤ)
    (hlen : rb.buffer.length = rb.capacity) (hpos : rb.write_pos < rb.capacity)
    (hd : d.length ≤ rb.capacity) (j : ℕ) (hj : j < rb.capacity) :
    (rb.write d).buffer.getD j 0 =
      if (j + rb.capacity - rb.write_pos) % rb.capacity < d.length
      then d.getD ((j + rb.capacity - rb.write_pos) % rb.capacity) 0
      else rb.buffer.getD j 0 := by
  rw [phys_eval rb.capacity rb.write_pos j hpos hj]
  unfold RingBuffer.write
  simp only
  rcases le_or_lt (rb.write_pos + d.length) rb.capacity with hnw | hw
  · -- no wrap: a single chunk is written
    have hB : ¬ d.length < d.length := by omega
    rw [if_pos hnw, if_neg hB, List.take_length]
    rw [listOverwrite_getD _ _ _ _ _ (by omega) (by omega)]
    rcases le_or_lt rb.write_pos j with hpj | hpj
    · rw [if_pos hpj]
      rcases Nat.lt_or_ge (j - rb.write_pos) d.length with hc | hc
      · have h1 : rb.write_pos ≤ j ∧ j < rb.write_pos + d.length := ⟨hpj, by omega⟩
        rw [if_pos h1, if_pos hc]
      · have h1 : ¬ (rb.write_pos ≤ j ∧ j < rb.write_pos + d.length) := by omega
        have h2 : ¬ j - rb.write_pos < d.length := by omega
        rw [if_neg h1, if_neg h2]
    · have hnpj : ¬ rb.write_pos ≤ j := by omega
      have h1 : ¬ (rb.write_pos ≤ j ∧ j < rb.write_pos + d.length) := by omega
      have h2 : ¬ j + rb.capacity - rb.write_pos < d.length := by omega
      rw [if_neg hnpj, if_neg h1, if_neg h2]
  · -- wrap: two chunks are written
    have hA : ¬ rb.write_pos + d.length ≤ rb.capacity := by omega
    have hB : rb.capacity - rb.write_pos < d.length := by omega
    rw [if_neg hA, if_pos hB]
    have hb1len : (listOverwrite rb.buffer rb.write_pos
        (d.take (rb.capacity - rb.write_pos))).length = rb.capacity := by
      rw [listOverwrite_length _ _ _ (by simp only [List.length_take]; omega), hlen]
    rw [listOverwrite_getD _ _ _ _ _
        (by rw [hb1len]; simp only [List.length_drop]; omega) (by rw [hb1len]; exact hj)]
    simp only [List.length_drop, Nat.zero_add, Nat.zero_le, true_and]
    rcases le_or_lt rb.write_pos j with hpj | hpj
    · -- physical index at or after the write position: first chunk
      have hout : ¬ j < d.length - (rb.capacity - rb.write_pos) := by omega
      rw [if_pos hpj, if_neg hout]
      have hcond : rb.write_pos ≤ j ∧
          j < rb.write_pos + (List.take (rb.capacity - rb.write_pos) d).length := by
        simp only [List.length_take]
        omega
      rw [listOverwrite_getD _ _ _ _ _ (by simp only [List.length_take]; omega) (by omega),
        if_pos hcond]
      have hRc : j - rb.write_pos < d.length := by omega
      rw [getD_take _ _ _ _ (by omega), if_pos hRc]
    · -- physical index before the write position: second chunk or untouched
      have hnpj : ¬ rb.write_pos ≤ j := by omega
      rw [if_neg hnpj]
      rcases Nat.lt_or_ge j (d.length - (rb.capacity - rb.write_pos)) with hc | hc
      · have hRc : j + rb.capacity - rb.write_pos < d.length := by omega
        rw [if_pos hc, getD_drop, if_pos hRc]
        congr 1
        omega
      · have hc' : ¬ j < d.length - (rb.capacity - rb.write_pos) := by omega
        have hRc : ¬ j + rb.capacity - rb.write_pos < d.length := by omega
        have hcond : ¬ (rb.write_pos ≤ j ∧
            j < rb.write_pos + (List.take (rb.capacity - rb.write_pos) d).length) := by
          simp only [List.length_take]
          omega
        rw [if_neg hc', if_neg hRc]
        rw [listOverwrite_getD _ _ _ _ _ (by simp only [List.length_take]; omega) (by omega),
          if_neg hcond]

theorem read_length (rb : RingBuffer) (offset count : ℕ)
    (hlen : rb.buffer.length = rb.capacity) (hcap : 0 < rb.capacity)
    (hcount : count ≤ rb.capacity) :
    (rb.read offset count).length = count := by
  have hst : offset % rb.capacity < rb.capacity := Nat.mod_lt _ hcap
  unfold RingBuffer.read
  simp only [List.length_append, List.length_take, List.length_drop]
  split_ifs <;> simp only [List.length_take, List.length_nil] <;> omega

theorem read_getD (rb : RingBuffer) (offset count : ℕ)
    (hlen : rb.buffer.length = rb.capacity) (hcap : 0 < rb.capacity)
    (hcount : count ≤ rb.capacity) (i : ℕ) (hi : i < count) :
    (rb.read offset count).getD i 0 =
      rb.buffer.getD ((offset % rb.capacity + i) % rb.capacity) 0 := by
  have hst : offset % rb.capacity < rb.capacity := Nat.mod_lt _ hcap
  unfold RingBuffer.read
  simp only
  rcases le_or_lt (offset % rb.capacity + count) rb.capacity with hnw | hw
  · have hB : ¬ count < count := by omega
    rw [if_pos hnw, if_neg hB, List.append_nil]
    rw [getD_take _ _ _ _ hi, getD_drop]
    have hmod : (offset % rb.capacity + i) % rb.capacity = offset % rb.capacity + i :=
      Nat.mod_eq_of_lt (by omega)
    rw [hmod]
  · have hA : ¬ offset % rb.capacity + count ≤ rb.capacity := by omega
    have hB : rb.capacity - offset % rb.capacity < count := by omega
    rw [if_neg hA, if_pos hB]
    rcases Nat.lt_or_ge i (rb.capacity - offset % rb.capacity) with h | h
    · rw [getD_append_left _ _ _ _
        (by simp only [List.length_take, List.length_drop]; omega)]
      rw [getD_take _ _ _ _ h, getD_drop]
      have hmod : (offset % rb.capacity + i) % rb.capacity = offset % rb.capacity + i :=
        Nat.mod_eq_of_lt (by omega)
      rw [hmod]
    · rw [getD_append_right _ _ _ _
        (by simp only [List.length_take, List.length_drop]; omega)]
      simp only [List.length_take, List.length_drop]
      have hmod : (offset % rb.capacity + i) % rb.capacity
          = offset % rb.capacity + i - rb.capacity := by
        rw [Nat.mod_eq_sub_mod (by omega)]
        exact Nat.mod_eq_of_lt (by omega)
      rw [hmod]
      rw [getD_take _ _ _ _ (by omega)]
      congr 1
      omega

/-- Invariant of a write sequence from a fresh buffer: the cursor equals the
stream length mod capacity, and every stream sample among the last `capacity`
written still sits at its physical position. -/
theorem writeSeq_spec (cap : ℕ) (hcap : 0 < cap) (ws : List (List ℤ))
    (hwf : ∀ l ∈ ws, l.length ≤ cap) :
    ((mkRingBuffer cap).writeSeq ws).capacity = cap ∧
    ((mkRingBuffer cap).writeSeq ws).buffer.length = cap ∧
    ((mkRingBuffer cap).writeSeq ws).write_pos = ws.flatten.length % cap ∧
    ∀ a, a < ws.flatten.length → ws.flatten.length ≤ a + cap →
      ((mkRingBuffer cap).writeSeq ws).buffer.getD (a % cap) 0 = ws.flatten.getD a 0 := by
  induction ws using List.reverseRecOn with
  | nil =>
    refine ⟨rfl, by simp [mkRingBuffer, RingBuffer.writeSeq], by simp [mkRingBuffer, RingBuffer.writeSeq], ?_⟩
    intro a ha
    simp at ha
  | append_singleton ws d ih =>
    have hwf' : ∀ l ∈ ws, l.length ≤ cap := fun l hl => hwf l (by simp [hl])
    have hd : d.length ≤ cap := hwf d (by simp)
    obtain ⟨ihcap, ihlen, ihpos, ihval⟩ := ih hwf'
    have hstep : (mkRingBuffer cap).writeSeq (ws ++ [d]) =
        ((mkRingBuffer cap).writeSeq ws).write d := by
      unfold RingBuffer.writeSeq
      rw [List.foldl_append]
      rfl
    have hflat : (ws ++ [d]).flatten = ws.flatten ++ d := List.flatten_concat ws d
    set s := (mkRingBuffer cap).writeSeq ws with hs
    have hpos : s.write_pos < cap := by
      rw [ihpos]
      exact Nat.mod_lt _ hcap
    have hd' : d.length ≤ s.capacity := by rw [ihcap]; exact hd
    have hlen' : s.buffer.length = s.capacity := by rw [ihcap, ihlen]
    have hpos' : s.write_pos < s.capacity := by rw [ihcap]; exact hpos
    refine ⟨?_, ?_, ?_, ?_⟩
    · rw [hstep]
      exact ihcap
    · rw [hstep]
      rw [write_buffer_length s d hlen' hpos' hd', ihcap]
    · rw [hstep]
      show (s.write_pos + d.length) % s.capacity = _
      rw [ihcap, ihpos, Nat.mod_add_mod, hflat]
      simp [List.length_append]
    · intro a ha hcapa
      rw [hflat] at *
      simp only [List.length_append] at ha hcapa
      rw [hstep]
      have hja : a % cap < s.capacity := by rw [ihcap]; exact Nat.mod_lt _ hcap
      rw [write_getD s d hlen' hpos' hd' (a % cap) hja]
      rw [ihcap, ihpos]
      rcases le_or_lt ws.flatten.length a with hge | hlt
      · -- the sample was written by the final write
        have hidx : (a % cap + cap - ws.flatten.length % cap) % cap = a - ws.flatten.length := by
          rw [phys_mod cap ws.flatten.length a hcap hge, Nat.mod_eq_of_lt (by omega)]
        rw [hidx, if_pos (by omega)]
        rw [getD_append_right _ _ _ _ hge]
      · -- the sample is from an earlier write and survives
        have hnot : ¬ (a % cap + cap - ws.flatten.length % cap) % cap < d.length := by
          intro hcontra
          set i := (a % cap + cap - ws.flatten.length % cap) % cap with hi
          have hcong : (i + ws.flatten.length) % cap = a % cap :=
            phys_mod_general cap ws.flatten.length a hcap
          have hxa : a < i + ws.flatten.length := by omega
          have hdvd : cap ∣ (i + ws.flatten.length) - a := by
            have : a ≡ i + ws.flatten.length [MOD cap] := hcong.symm
            exact (Nat.modEq_iff_dvd' (le_of_lt hxa)).mp this
          have hle : cap ≤ (i + ws.flatten.length) - a := Nat.le_of_dvd (by omega) hdvd
          omega
        rw [if_neg hnot]
        rw [ihval a hlt (by omega), getD_append_left _ _ _ _ hlt]

/-! ## Claims C1 and C2: ring buffer read-back and cursor -/

/-- C1 (amended): for a ring buffer whose capacity is a power of two (it
divides `2^64`), after any write history `ws1`, snapshotting the cursor,
and at most `capacity - N` further samples written (`ws2`),
`read(getWritePosition() - N, out, N)` (with `size_t` wraparound) returns
exactly the last `N` values of `ws1`, in order. -/
theorem ringbuffer_read_last_n (cap : ℕ) (hcap : cap ∣ WORD)
    (ws1 ws2 : List (List ℤ)) (N : ℕ) (hN : N ≤ cap)
    (hwf : ∀ l ∈ ws1 ++ ws2, l.length ≤ cap)
    (hlen1 : N ≤ ws1.flatten.length)
    (hlag : N + ws2.flatten.length ≤ cap) :
    ((mkRingBuffer cap).writeSeq (ws1 ++ ws2)).read
        ((((mkRingBuffer cap).writeSeq ws1).getWritePosition + (WORD - N)) % WORD) N
      = ws1.flatten.drop (ws1.flatten.length - N) := by
  have hword : 0 < WORD := by
    unfold WORD
    positivity
  have hcap0 : 0 < cap := by
    rcases Nat.eq_zero_or_pos cap with h | h
    · subst h
      rw [Nat.eq_zero_of_zero_dvd hcap] at hword
      exact absurd hword (by omega)
    · exact h
  have hcapW : cap ≤ WORD := Nat.le_of_dvd hword hcap
  have hwf1 : ∀ l ∈ ws1, l.length ≤ cap := fun l hl => hwf l (by simp [hl])
  obtain ⟨hc1, hl1, hp1, hv1⟩ := writeSeq_spec cap hcap0 ws1 hwf1
  obtain ⟨hc, hl, hp, hv⟩ := writeSeq_spec cap hcap0 (ws1 ++ ws2) hwf
  set s := (mkRingBuffer cap).writeSeq (ws1 ++ ws2) with hsdef
  have hSlen : (ws1 ++ ws2).flatten.length = ws1.flatten.length + ws2.flatten.length := by
    rw [List.flatten_append, List.length_append]
  have hpos1 : ((mkRingBuffer cap).writeSeq ws1).getWritePosition = ws1.flatten.length % cap :=
    hp1
  -- the effective start position of the read
  have hoff : (((mkRingBuffer cap).writeSeq ws1).getWritePosition + (WORD - N)) % WORD % cap
      = (ws1.flatten.length - N) % cap := by
    rw [hpos1, Nat.mod_mod_of_dvd _ hcap, Nat.mod_add_mod]
    have harg : ws1.flatten.length + (WORD - N) = (ws1.flatten.length - N) + WORD / cap * cap := by
      rw [Nat.div_mul_cancel hcap]
      omega
    rw [harg, Nat.add_mul_mod_self_right]
  apply List.ext_getElem
  · rw [read_length s _ N (by rw [hc, hl]) (by rw [hc]; exact hcap0) (by rw [hc]; exact hN)]
    simp only [List.length_drop]
    omega
  · intro i h1 h2
    rw [← getD_of_lt _ _ (0 : ℤ) h1, ← getD_of_lt _ _ (0 : ℤ) h2]
    have hiN : i < N := by
      rw [read_length s _ N (by rw [hc, hl]) (by rw [hc]; exact hcap0) (by rw [hc]; exact hN)]
        at h1
      exact h1
    rw [read_getD s _ N (by rw [hc, hl]) (by rw [hc]; exact hcap0) (by rw [hc]; exact hN) i hiN]
    rw [hc]
    have hidx : ((((mkRingBuffer cap).writeSeq ws1).getWritePosition + (WORD - N)) % WORD % cap
        + i) % cap = (ws1.flatten.length - N + i) % cap := by
      rw [hoff, Nat.mod_add_mod]
    rw [hidx]
    have ha1 : ws1.flatten.length - N + i < (ws1 ++ ws2).flatten.length := by
      rw [hSlen]
      omega
    have ha2 : (ws1 ++ ws2).flatten.length ≤ ws1.flatten.length - N + i + cap := by
      rw [hSlen]
      omega
    rw [hv _ ha1 ha2, List.flatten_append, getD_append_left _ _ _ _ (by omega), getD_drop]

/-- C1 witness: capacity 4 (a power of two), history `[10,20,30]` then one
more sample `40` written after the snapshot; reading the last 2 samples
returns `[20, 30]`. -/
theorem ringbuffer_read_last_n_witness :
    ((mkRingBuffer 4).writeSeq ([[10, 20, 30]] ++ [[40]])).read
        ((((mkRingBuffer 4).writeSeq [[10, 20, 30]]).getWritePosition + (WORD - 2)) % WORD) 2
      = ([[10, 20, 30]] : List (List ℤ)).flatten.drop
          (([[10, 20, 30]] : List (List ℤ)).flatten.length - 2) :=
  ringbuffer_read_last_n 4 ⟨2 ^ 62, by decide⟩ [[10, 20, 30]] [[40]] 2 (by norm_num)
    (by decide) (by decide) (by decide)

/-- C1 counterexample: with (non-power-of-two) capacity 3, after a single
write of `[1, 2, 3]` the claimed read of the last 2 samples returns
`[3, 1]`, not the last two written values `[2, 3]` — the `size_t`
underflow `getWritePosition() - N` lands on the wrong physical index. -/
theorem ringbuffer_read_last_n_counterexample :
    ((mkRingBuffer 3).writeSeq [[1, 2, 3]]).read
        ((((mkRingBuffer 3).writeSeq [[1, 2, 3]]).getWritePosition + (WORD - 2)) % WORD) 2
      = [3, 1] ∧ ([3, 1] : List ℤ) ≠ [2, 3] := by
  constructor
  · decide
  · decide

/-- C2 (amended): a write advances the stored cursor to
`(previous + count) % capacity`; the cursor wraps at the capacity instead of
increasing monotonically. -/
theorem write_getWritePosition (rb : RingBuffer) (data : List ℤ) :
    (rb.write data).getWritePosition = (rb.getWritePosition + data.length) % rb.capacity :=
  rfl

/-- C2 counterexample: writing 4 samples into a fresh capacity-4 buffer
leaves `getWritePosition()` at `0`, not at `0 + 4`. -/
theorem write_getWritePosition_counterexample :
    ((mkRingBuffer 4).write [5, 6, 7, 8]).getWritePosition ≠
      (mkRingBuffer 4).getWritePosition + 4 := by
  decide

/-! ## Claims C3 and C8: scrolling canvas offsets and argument errors -/

/-- The offset relation maintained by `updateReadOffset`. -/
def goodOffsets (w : ℕ) (s : SpectrogramImage) : Prop :=
  (s.columns_written ≤ w → s.read_offset = 0) ∧
  (w < s.columns_written →
    s.read_offset = if w ≤ s.write_offset then s.write_offset - w else s.write_offset + w)

theorem updateReadOffset_good (img : SpectrogramImage) :
    goodOffsets img.width img.updateReadOffset := by
  unfold SpectrogramImage.updateReadOffset goodOffsets
  split_ifs with h1 h2 <;> constructor <;> intro h <;> simp_all <;> omega

theorem addColumn_fst_width (img : SpectrogramImage) (c : List ℕ) :
    (img.addColumn c).1.width = img.width := by
  by_cases h : c.length ≠ img.height <;>
    simp only [SpectrogramImage.addColumn, SpectrogramImage.updateReadOffset, h,
      if_true, if_false, ite_not, if_neg, if_pos] <;>
    split_ifs <;> rfl

theorem goodOffsets_addColumn (img : SpectrogramImage) (c : List ℕ)
    (h : goodOffsets img.width img) :
    goodOffsets img.width (img.addColumn c).1 := by
  unfold SpectrogramImage.addColumn
  split_ifs with hc
  · exact h
  · simp only
    exact updateReadOffset_good _

theorem goodOffsets_addColumns (img : SpectrogramImage) (cols : List (List ℕ))
    (h : goodOffsets img.width img) :
    goodOffsets img.width (img.addColumns cols) := by
  induction cols generalizing img with
  | nil => exact h
  | cons c cols ih =>
    show goodOffsets img.width (((img.addColumn c).1).addColumns cols)
    rw [← addColumn_fst_width img c]
    exact ih _ (by rw [addColumn_fst_width]; exact goodOffsets_addColumn img c h)

/-- C3: after any sequence of successful `addColumn` calls on a freshly
constructed canvas, `read_offset` is 0 while `columns_written ≤ width`, and
equals `write_offset - width` (or `write_offset + width` when
`write_offset < width`) afterwards; in particular the 5×3 canvas behaves as
claimed after 5, 6 and 10 calls. -/
theorem spectrogram_offset_invariant (w h : ℕ) (hw : 0 < w) (hh : 0 < h)
    (cols : List (List ℕ)) (hcols : ∀ c ∈ cols, c.length = h) :
    (((freshImage w h).addColumns cols).columns_written ≤ w →
        ((freshImage w h).addColumns cols).read_offset = 0) ∧
    (w < ((freshImage w h).addColumns cols).columns_written →
        ((freshImage w h).addColumns cols).read_offset =
          if w ≤ ((freshImage w h).addColumns cols).write_offset
          then ((freshImage w h).addColumns cols).write_offset - w
          else ((freshImage w h).addColumns cols).write_offset + w) ∧
    ((freshImage 5 3).addColumns (List.replicate 5 [0, 0, 0])).read_offset = 0 ∧
    ((freshImage 5 3).addColumns (List.replicate 6 [0, 0, 0])).read_offset = 1 ∧
    ((freshImage 5 3).addColumns (List.replicate 10 [0, 0, 0])).write_offset = 0 ∧
    ((freshImage 5 3).addColumns (List.replicate 10 [0, 0, 0])).read_offset = 5 := by
  have hfresh : goodOffsets w (freshImage w h) := by
    constructor
    · intro
      rfl
    · intro hcontra
      exact absurd hcontra (by simp [freshImage])
  have hmain := goodOffsets_addColumns (freshImage w h) cols hfresh
  exact ⟨hmain.1, hmain.2, by decide, by decide, by decide, by decide⟩

/-- C3 witness: a 2×1 canvas after three successful one-pixel columns. -/
theorem spectrogram_offset_invariant_witness :
    ((((freshImage 2 1).addColumns [[7], [8], [9]]).columns_written ≤ 2 →
        (((freshImage 2 1)).addColumns [[7], [8], [9]]).read_offset = 0) ∧
    (2 < ((freshImage 2 1).addColumns [[7], [8], [9]]).columns_written →
        ((freshImage 2 1).addColumns [[7], [8], [9]]).read_offset =
          if 2 ≤ ((freshImage 2 1).addColumns [[7], [8], [9]]).write_offset
          then ((freshImage 2 1).addColumns [[7], [8], [9]]).write_offset - 2
          else ((freshImage 2 1).addColumns [[7], [8], [9]]).write_offset + 2) ∧
    ((freshImage 5 3).addColumns (List.replicate 5 [0, 0, 0])).read_offset = 0 ∧
    ((freshImage 5 3).addColumns (List.replicate 6 [0, 0, 0])).read_offset = 1 ∧
    ((freshImage 5 3).addColumns (List.replicate 10 [0, 0, 0])).write_offset = 0 ∧
    ((freshImage 5 3).addColumns (List.replicate 10 [0, 0, 0])).read_offset = 5) :=
  spectrogram_offset_invariant 2 1 (by decide) (by decide) [[7], [8], [9]] (by decide)

/-- C8: `addColumn` with a mismatched column height throws the argument
error and leaves every component of the state unchanged; with a matching
height it succeeds. -/
theorem addColumn_height_check (img : SpectrogramImage) (column : List ℕ) :
    (column.length ≠ img.height →
      img.addColumn column = (img, some "Column height must match image height")) ∧
    (column.length = img.height → (img.addColumn column).2 = none) := by
  constructor
  · intro h
    unfold SpectrogramImage.addColumn
    rw [if_pos h]
  · intro h
    unfold SpectrogramImage.addColumn
    rw [if_neg (by simp [h])]

/-- C8 witness: on a 5×3 canvas, a 2-pixel column is rejected with the state
returned untouched, and a 3-pixel column is accepted. -/
theorem addColumn_height_check_witness :
    (freshImage 5 3).addColumn [1, 2] =
        (freshImage 5 3, some "Column height must match image height") ∧
    ((freshImage 5 3).addColumn [1, 2, 3]).2 = none :=
  ⟨(addColumn_height_check (freshImage 5 3) [1, 2]).1 (by decide),
   (addColumn_height_check (freshImage 5 3) [1, 2, 3]).2 (by decide)⟩

/-! ## Claim C7: FFT size validation -/

/-- C7: `FFTProcessor` construction is accepted exactly when the FFT size is
a power of two in `[32, 16384]`. -/
theorem mkFFTProcessor_ok_iff (n : ℕ) (w : WindowFunction) :
    (∃ c, mkFFTProcessor n w = .ok c) ↔ (∃ k, n = 2 ^ k) ∧ 32 ≤ n ∧ n ≤ 16384 := by
  unfold mkFFTProcessor
  split_ifs with h
  · constructor
    · intro _
      exact (isValidFFTSize_iff n).mp h
    · intro _
      exact ⟨⟨n, w⟩, rfl⟩
  · constructor
    · rintro ⟨c, hc⟩
      cases hc
    · intro hr
      exact absurd ((isValidFFTSize_iff n).mpr hr) h

/-! ## FrequencyResampler (`frequency_resampler.cpp` / `.hpp`)

`float` is modelled as `ℝ`; `std::log10`/`std::log2` as `Real.logb`,
`std::pow` as real exponentiation. -/

inductive FrequencyScale
  | Linear
  | Logarithmic
  | Mel
  | ERB
  | Octave

def linearTransform (freq : ℝ) : ℝ := freq

def linearInverse (value : ℝ) : ℝ := value

noncomputable def melTransform (freq : ℝ) : ℝ :=
  2595 * Real.logb 10 (1 + freq / 700)

noncomputable def melInverse (mel : ℝ) : ℝ :=
  700 * ((10 : ℝ) ^ (mel / 2595) - 1)

def ERB_A : ℝ := 21.33228113095401739888262

noncomputable def erbTransform (freq : ℝ) : ℝ :=
  ERB_A * Real.logb 10 (1 + 0.00437 * freq)

noncomputable def erbInverse (erb : ℝ) : ℝ :=
  ((10 : ℝ) ^ (erb / ERB_A) - 1) / 0.00437

noncomputable def logTransform (freq : ℝ) : ℝ :=
  Real.logb 10 (max freq 1e-20)

noncomputable def logInverse (log_value : ℝ) : ℝ :=
  (10 : ℝ) ^ log_value

noncomputable def octaveTransform (freq : ℝ) : ℝ :=
  Real.logb 2 (max freq 1e-20)

noncomputable def octaveInverse (octave_value : ℝ) : ℝ :=
  (2 : ℝ) ^ octave_value

/-- The forward transform selected by `computeMapping`'s switch. -/
noncomputable def transform : FrequencyScale → ℝ → ℝ
  | .Linear => linearTransform
  | .Mel => melTransform
  | .ERB => erbTransform
  | .Logarithmic => logTransform
  | .Octave => octaveTransform

/-- The inverse transform selected by `computeMapping`'s switch. -/
noncomputable def inverse : FrequencyScale → ℝ → ℝ
  | .Linear => linearInverse
  | .Mel => melInverse
  | .ERB => erbInverse
  | .Logarithmic => logInverse
  | .Octave => octaveInverse

structure FrequencyResamplerState where
  scale : FrequencyScale
  min_freq : ℝ
  max_freq : ℝ
  sample_rate : ℝ
  fft_size : ℕ
  output_height : ℕ
  freq_mapping : List ℝ

/-- `FrequencyResampler::validate()`, as a function of the member fields it
reads; `some msg` models a thrown `std::invalid_argument`. -/
noncomputable def validate (min_freq max_freq sample_rate : ℝ)
    (fft_size output_height : ℕ) : Option String :=
  if min_freq ≤ 0 then some "Minimum frequency must be > 0"
  else if max_freq ≤ min_freq then some "Maximum frequency must be > minimum frequency"
  else if sample_rate / 2 < max_freq then some "Maximum frequency exceeds Nyquist frequency"
  else if output_height = 0 then some "Output height must be > 0"
  else if fft_size = 0 ∨ fft_size &&& (fft_size - 1) ≠ 0 then
    some "FFT size must be a power of 2"
  else none

/-- The denominator `static_cast<float>(output_height_ - 1)` of the pixel
position `t` in `computeMapping`. -/
def tDen (output_height : ℕ) : ℝ := ((output_height - 1 : ℕ) : ℝ)

/-- `FrequencyResampler::computeMapping()`: the per-pixel fractional FFT bin
indices. -/
noncomputable def computeMapping (scale : FrequencyScale)
    (min_freq max_freq sample_rate : ℝ) (fft_size output_height : ℕ) : List ℝ :=
  let min_transformed := transform scale min_freq
  let max_transformed := transform scale max_freq
  (List.range output_height).map (fun i =>
    let t := (i : ℝ) / tDen output_height
    let transformed := min_transformed + t * (max_transformed - min_transformed)
    let freq_hz := inverse scale transformed
    freq_hz * (fft_size : ℝ) / sample_rate)

/-- The `FrequencyResampler` constructor: validate, then precompute the
mapping. -/
noncomputable def mkFrequencyResampler (scale : FrequencyScale)
    (min_freq max_freq sample_rate : ℝ) (fft_size output_height : ℕ) :
    Except String FrequencyResamplerState :=
  match validate min_freq max_freq sample_rate fft_size output_height with
  | some e => .error e
  | none => .ok ⟨scale, min_freq, max_freq, sample_rate, fft_size, output_height,
      computeMapping scale min_freq max_freq sample_rate fft_size output_height⟩

/-- `FrequencyResampler::setFrequencyRange(min, max)`: the fields are
assigned first, then `validate()` may throw, then the mapping is recomputed.
On a throw the pair carries the state at the throw point. -/
noncomputable def setFrequencyRange (st : FrequencyResamplerState)
    (min_freq max_freq : ℝ) : FrequencyResamplerState × Option String :=
  let st1 := { st with min_freq := min_freq, max_freq := max_freq }
  match validate min_freq max_freq st.sample_rate st.fft_size st.output_height with
  | some e => (st1, some e)
  | none =>
    ({ st1 with freq_mapping := (computeMapping st1.scale min_freq max_freq
        st1.sample_rate st1.fft_size st1.output_height) }, none)

/-- One output pixel of `FrequencyResampler::resample`: clamp the
precomputed bin index, split into integer and fractional part, and
interpolate linearly. -/
noncomputable def resampleAt (freq_mapping : List ℝ) (fft_size : ℕ)
    (input : ℕ → ℝ) (i : ℕ) : ℝ :=
  let num_bins := fft_size / 2 + 1
  let bin_idx := max 0 (min (freq_mapping.getD i 0) ((num_bins - 1 : ℕ) : ℝ))
  let bin0 := ⌊bin_idx⌋₊
  let bin1 := min (bin0 + 1) (num_bins - 1)
  let frac := bin_idx - (bin0 : ℝ)
  input bin0 * (1 - frac) + input bin1 * frac

/-- `FrequencyResampler::resample(input, output)`. -/
noncomputable def resample (st : FrequencyResamplerState) (input : ℕ → ℝ) : List ℝ :=
  (List.range st.output_height).map (resampleAt st.freq_mapping st.fft_size input)

theorem validate_eq_none_iff (minf maxf sr : ℝ) (n h : ℕ) :
    validate minf maxf sr n h = none ↔
      0 < minf ∧ minf < maxf ∧ maxf ≤ sr / 2 ∧ 0 < h ∧ ∃ k, n = 2 ^ k := by
  unfold validate
  split_ifs with h1 h2 h3 h4 h5
  · exact iff_of_false (by simp) (by rintro ⟨c1, -, -, -, -⟩; linarith)
  · exact iff_of_false (by simp) (by rintro ⟨-, c2, -, -, -⟩; linarith)
  · exact iff_of_false (by simp) (by rintro ⟨-, -, c3, -, -⟩; linarith)
  · exact iff_of_false (by simp) (by rintro ⟨-, -, -, c4, -⟩; omega)
  · refine iff_of_false (by simp) ?_
    rintro ⟨-, -, -, -, k, rfl⟩
    rcases h5 with h5 | h5
    · exact absurd h5 (by positivity)
    · exact h5 (land_pred_eq_zero_of_pow2 k)
  · push_neg at h5
    exact iff_of_true rfl
      ⟨by linarith, by linarith, by linarith, by omega,
        pow2_of_land_pred_eq_zero n h5.1 h5.2⟩

/-! ## Claim C6: resampler construction validation -/

/-- C6: `FrequencyResampler` construction succeeds exactly when
`min_freq > 0`, `max_freq > min_freq`, `max_freq ≤ sample_rate/2`,
`output_height > 0` and `fft_size` is a power of two. -/
theorem mkFrequencyResampler_ok_iff (scale : FrequencyScale) (minf maxf sr : ℝ)
    (n h : ℕ) :
    (∃ st, mkFrequencyResampler scale minf maxf sr n h = .ok st) ↔
      0 < minf ∧ minf < maxf ∧ maxf ≤ sr / 2 ∧ 0 < h ∧ ∃ k, n = 2 ^ k := by
  rw [← validate_eq_none_iff minf maxf sr n h]
  cases hval : validate minf maxf sr n h with
  | none => simp [mkFrequencyResampler, hval]
  | some e => simp [mkFrequencyResampler, hval]

/-! ## Claim C4: scale inverse round-trip -/

theorem roundtrip_pos (f : ℝ) (h1 : 0 < f) (h2 : (1e-20 : ℝ) ≤ f)
    (s : FrequencyScale) : inverse s (transform s f) = f := by
  have h10 : (0 : ℝ) < 10 := by norm_num
  have h10' : (10 : ℝ) ≠ 1 := by norm_num
  cases s with
  | Linear => rfl
  | Logarithmic =>
    show logInverse (logTransform f) = f
    unfold logInverse logTransform
    rw [max_eq_left h2]
    exact Real.rpow_logb h10 h10' h1
  | Octave =>
    show octaveInverse (octaveTransform f) = f
    unfold octaveInverse octaveTransform
    rw [max_eq_left h2]
    exact Real.rpow_logb (by norm_num) (by norm_num) h1
  | Mel =>
    show melInverse (melTransform f) = f
    unfold melInverse melTransform
    rw [mul_div_cancel_left₀ _ (by norm_num : (2595 : ℝ) ≠ 0)]
    rw [Real.rpow_logb h10 h10' (by linarith : (0 : ℝ) < 1 + f / 700)]
    ring
  | ERB =>
    show erbInverse (erbTransform f) = f
    unfold erbInverse erbTransform
    have hA : ERB_A ≠ 0 := by
      unfold ERB_A
      norm_num
    rw [mul_div_cancel_left₀ _ hA]
    rw [Real.rpow_logb h10 h10' (by nlinarith : (0 : ℝ) < 1 + 0.00437 * f)]
    have he : (1 : ℝ) + 0.00437 * f - 1 = 0.00437 * f := by ring
    rw [he, mul_div_cancel_left₀ _ (by norm_num : (0.00437 : ℝ) ≠ 0)]

/-- C4: for each of the seven test frequencies and each of the five scales,
the inverse of the forward transform recovers the frequency exactly (hence
well within 1e-2). -/
theorem scale_inverse_roundtrip (f : ℝ)
    (hf : f = 20 ∨ f = 100 ∨ f = 500 ∨ f = 1000 ∨ f = 5000 ∨ f = 10000 ∨ f = 20000)
    (s : FrequencyScale) :
    inverse s (transform s f) = f := by
  have h1 : 0 < f := by
    rcases hf with rfl | rfl | rfl | rfl | rfl | rfl | rfl <;> norm_num
  have h2 : (1e-20 : ℝ) ≤ f := by
    rcases hf with rfl | rfl | rfl | rfl | rfl | rfl | rfl <;> norm_num
  exact roundtrip_pos f h1 h2 s

/-- C4 witness: the Mel round-trip at 1000 Hz. -/
theorem scale_inverse_roundtrip_witness :
    inverse FrequencyScale.Mel (transform FrequencyScale.Mel 1000) = 1000 :=
  scale_inverse_roundtrip 1000 (by norm_num) FrequencyScale.Mel

/-! ## Claim C5: resampler flatness -/

/-- C5: a validly constructed resampler maps a constant input spectrum to
the same constant at every output pixel, exactly. -/
theorem resample_flat (scale : FrequencyScale) (minf maxf sr : ℝ) (n h : ℕ)
    (h1 : 0 < minf) (h2 : minf < maxf) (h3 : maxf ≤ sr / 2) (h4 : 0 < h)
    (h5 : ∃ k, n = 2 ^ k) (c : ℝ) (i : ℕ) (hi : i < h) :
    (resample ⟨scale, minf, maxf, sr, n, h, computeMapping scale minf maxf sr n h⟩
        (fun _ => c)).getD i 0 = c := by
  show ((List.range h).map
      (resampleAt (computeMapping scale minf maxf sr n h) n (fun _ => c))).getD i 0 = c
  rw [getD_of_lt _ _ _ (by simpa using hi)]
  rw [List.getElem_map, List.getElem_range]
  unfold resampleAt
  dsimp only
  ring

/-- C5 witness: a Linear-scale resampler, constant spectrum at -7 dB,
pixel 2. -/
theorem resample_flat_witness :
    (resample ⟨FrequencyScale.Linear, 20, 20000, 48000, 1024, 4,
        computeMapping FrequencyScale.Linear 20 20000 48000 1024 4⟩
      (fun _ => -7)).getD 2 0 = -7 :=
  resample_flat FrequencyScale.Linear 20 20000 48000 1024 4 (by norm_num) (by norm_num)
    (by norm_num) (by norm_num) ⟨10, by norm_num⟩ (-7) 2 (by norm_num)

/-! ## Claim C9: setFrequencyRange error leaves a half-updated state -/

/-- C9: when `setFrequencyRange` is called with a range violating the
constraints, it reports an error, yet the stored `min_freq`/`max_freq`
already hold the rejected values while the precomputed mapping is left at
its previous contents. -/
theorem setFrequencyRange_error_state (st : FrequencyResamplerState) (a b : ℝ)
    (hviol : a ≤ 0 ∨ b ≤ a ∨ st.sample_rate / 2 < b) :
    (setFrequencyRange st a b).2.isSome = true ∧
    (setFrequencyRange st a b).1.min_freq = a ∧
    (setFrequencyRange st a b).1.max_freq = b ∧
    (setFrequencyRange st a b).1.freq_mapping = st.freq_mapping := by
  obtain ⟨e, he⟩ : ∃ e, validate a b st.sample_rate st.fft_size st.output_height = some e := by
    unfold validate
    split_ifs with h1 h2 h3 h4 h5
    · exact ⟨_, rfl⟩
    · exact ⟨_, rfl⟩
    · exact ⟨_, rfl⟩
    · exact ⟨_, rfl⟩
    · exact ⟨_, rfl⟩
    · exfalso
      rcases hviol with h | h | h
      · exact h1 h
      · exact h2 h
      · exact h3 h
  simp [setFrequencyRange, he]

/-- C9 witness: a concrete resampler state, range set to (50, 30): rejected,
fields overwritten, mapping untouched. -/
theorem setFrequencyRange_error_state_witness :
    (setFrequencyRange ⟨FrequencyScale.Linear, 100, 200, 1000, 64, 4, [1, 2, 3]⟩
        50 30).2.isSome = true ∧
    (setFrequencyRange ⟨FrequencyScale.Linear, 100, 200, 1000, 64, 4, [1, 2, 3]⟩
        50 30).1.min_freq = 50 ∧
    (setFrequencyRange ⟨FrequencyScale.Linear, 100, 200, 1000, 64, 4, [1, 2, 3]⟩
        50 30).1.max_freq = 30 ∧
    (setFrequencyRange ⟨FrequencyScale.Linear, 100, 200, 1000, 64, 4, [1, 2, 3]⟩
        50 30).1.freq_mapping = [1, 2, 3] :=
  setFrequencyRange_error_state ⟨FrequencyScale.Linear, 100, 200, 1000, 64, 4, [1, 2, 3]⟩
    50 30 (Or.inr (Or.inl (by norm_num)))

/-! ## Claim C10: output_height = 1 passes validation but zeroes the
`t` denominator in computeMapping -/

/-- C10: with `output_height = 1` (and otherwise valid parameters)
construction succeeds, yet the denominator `output_height - 1` used for the
pixel position `t` in `computeMapping` is zero; it is nonzero exactly under
the stronger precondition `output_height ≥ 2`. -/
theorem output_height_one_mapping (scale : FrequencyScale) (minf maxf sr : ℝ)
    (n : ℕ) (h1 : 0 < minf) (h2 : minf < maxf) (h3 : maxf ≤ sr / 2)
    (h5 : ∃ k, n = 2 ^ k) :
    (∃ st, mkFrequencyResampler scale minf maxf sr n 1 = .ok st) ∧
    tDen 1 = 0 ∧ ∀ h : ℕ, 2 ≤ h → tDen h ≠ 0 := by
  refine ⟨?_, ?_, ?_⟩
  · have hv := (validate_eq_none_iff minf maxf sr n 1).mpr ⟨h1, h2, h3, by norm_num, h5⟩
    exact ⟨⟨scale, minf, maxf, sr, n, 1, computeMapping scale minf maxf sr n 1⟩,
      by simp [mkFrequencyResampler, hv]⟩
  · unfold tDen
    norm_num
  · intro h hh
    unfold tDen
    simp only [ne_eq, Nat.cast_eq_zero]
    omega

/-- C10 witness: a Mel resampler over 20–20000 Hz at 48 kHz with
`fft_size = 4096` and a single output pixel. -/
theorem output_height_one_mapping_witness :
    (∃ st, mkFrequencyResampler FrequencyScale.Mel 20 20000 48000 4096 1 = .ok st) ∧
    tDen 1 = 0 ∧ ∀ h : ℕ, 2 ≤ h → tDen h ≠ 0 :=
  output_height_one_mapping FrequencyScale.Mel 20 20000 48000 4096 (by norm_num)
    (by norm_num) (by norm_num) ⟨12, by norm_num⟩

end Friture
